import Mathlib

/-!
Verification of the Hamming(7,4) codec in `src/hamming.c` against its
specification.  Bits are modelled as `Nat` (the C code stores them in `int`
arrays; all specified inputs use values 0/1), buffers as `List Nat`.
Array reads inside the fixed-size nibble-level helpers are modelled with
`List.getD` (the C callers always pass correctly sized buffers there); the
public block functions, whose loop bounds are in question, are modelled with
bounds-checked reads/writes returning `Option`, so that an out-of-bounds
access by the C code shows up as `none`.
-/

/-- Embeds `parity_check` (src/hamming.c lines 34-46): even parity of the
bits in parity group `p`, iterating `i` from `mask - 1` to `n - 1` and
XOR-ing `data[i]` whenever `(i + 1) &&& mask ≠ 0`, with `mask = 1 <<< p`. -/
def parity_check (n : Nat) (data : List Nat) (p : Nat) : Nat :=
  let mask := 1 <<< p
  (List.range' (mask - 1) (n - (mask - 1))).foldl
    (fun sum i => if (i + 1) &&& mask ≠ 0 then sum ^^^ data.getD i 0 else sum) 0

/-- Embeds `calculate_syndrome` (src/hamming.c lines 59-75): for each `p`
with `2^p ≤ n` (the loop's `while` guard) and `2^p - 1 < n` (the loop's
`break` guard, which in fact never fires when the `while` guard holds),
OR the parity check of group `p`, shifted left by `p`, into the syndrome.
The C `while` loop is modelled as a guarded fold over `p < n`; this covers
every loop iteration because `2^p ≤ n` forces `p < n`, and the guard is
monotone (once false it stays false). -/
def calculate_syndrome (n : Nat) (encoded_data : List Nat) : Nat :=
  (List.range n).foldl
    (fun syndrome p =>
      if 1 <<< p ≤ n ∧ 1 <<< p - 1 < n then
        syndrome ||| (parity_check n encoded_data p <<< p)
      else syndrome) 0

/-- Embeds `hamming_encode_nibble` (src/hamming.c lines 85-112): zero the
7-slot output, place the 4 data bits at the non-parity indices (skipping
`i` with `i &&& (i+1) = 0`, i.e. indices 0, 1, 3), then store each group's
parity at index `2^p - 1` for `p = 0, 1, 2`. -/
def hamming_encode_nibble (data : List Nat) : List Nat :=
  let n := 7
  let r := 3
  let placed :=
    ((List.range n).foldl
      (fun (st : List Nat × Nat) i =>
        if i &&& (i + 1) = 0 then st
        else (st.1.set i (data.getD st.2 0), st.2 + 1))
      (List.replicate n 0, 0)).1
  (List.range r).foldl
    (fun enc p => enc.set (1 <<< p - 1) (parity_check n enc p))
    placed

/-- Embeds `hamming_decode_nibble` (src/hamming.c lines 126-144).  The C
function mutates its `encoded_data` buffer in place when it corrects a bit;
the model returns the pair (final encoded buffer, decoded 4-bit output). -/
def hamming_decode_nibble (encoded_data : List Nat) : List Nat × List Nat :=
  let syndrome := calculate_syndrome 7 encoded_data
  let enc :=
    if syndrome ≠ 0 then
      let error_pos := syndrome - 1
      if error_pos < 7 then
        encoded_data.set error_pos (encoded_data.getD error_pos 0 ^^^ 1)
      else encoded_data
    else encoded_data
  (enc, [enc.getD 2 0, enc.getD 4 0, enc.getD 5 0, enc.getD 6 0])

/-- Bounds-checked store into a buffer: `none` models the C program writing
past the end of a caller-supplied array. -/
def writeBit (l : List Nat) (i : Nat) (v : Nat) : Option (List Nat) :=
  if i < l.length then some (l.set i v) else none

/-- Embeds `hamming_encode_74` (src/hamming.c lines 184-199): the loop
`for (i = 0; i < total_bits; i += 4)` runs `(total_bits + 3) / 4` times;
iteration `k` (with `i = 4k`) reads `input_bits[i..i+3]`, encodes the
nibble, and writes the 7 codeword bits at `out_bits[(i/4)*7 + j]`.
Reads and writes are bounds-checked against the caller-supplied buffers. -/
def hamming_encode_74 (input_bits : List Nat) (total_bits : Nat)
    (out_bits : List Nat) : Option (List Nat) :=
  (List.range ((total_bits + 3) / 4)).foldlM
    (fun out k => do
      let i := 4 * k
      let b0 ← input_bits[i]?
      let b1 ← input_bits[i + 1]?
      let b2 ← input_bits[i + 2]?
      let b3 ← input_bits[i + 3]?
      let encoded := hamming_encode_nibble [b0, b1, b2, b3]
      (List.range 7).foldlM
        (fun o j => writeBit o ((i / 4) * 7 + j) (encoded.getD j 0)) out)
    out_bits

/-- Embeds `hamming_decode_74` (src/hamming.c lines 203-219).  Note the C
loop bound is `i < total_bits / 4` (not `/ 7`).  Iteration `i` copies
`in_bits[i*7 .. i*7+6]` into a local 7-slot buffer, decodes it, and writes
the 4 decoded bits at `decoded_bits[i*4 .. i*4+3]`.  The state threads the
pair (in_bits, decoded_bits) so that the frame condition on `in_bits` -
which the C code only reads (it is `const`) - is visible in the model;
reads and writes are bounds-checked. -/
def decode_74_step (st : List Nat × List Nat) (i : Nat) :
    Option (List Nat × List Nat) := do
  let encoded ← (List.range 7).mapM (fun j => st.1[i * 7 + j]?)
  let block := (hamming_decode_nibble encoded).2
  let d0 ← writeBit st.2 (i * 4 + 0) (block.getD 0 0)
  let d1 ← writeBit d0 (i * 4 + 1) (block.getD 1 0)
  let d2 ← writeBit d1 (i * 4 + 2) (block.getD 2 0)
  let d3 ← writeBit d2 (i * 4 + 3) (block.getD 3 0)
  pure (st.1, d3)

/-- Iterating `decode_74_step` over the `total_bits / 4` loop indices. -/
def hamming_decode_74 (in_bits : List Nat) (total_bits : Nat)
    (decoded_bits : List Nat) : Option (List Nat × List Nat) :=
  (List.range (total_bits / 4)).foldlM decode_74_step (in_bits, decoded_bits)

/-- Bit value of a boolean, for quantifying over inputs whose entries are
the bits 0 and 1. -/
def b2i (b : Bool) : Nat := if b then 1 else 0

/-- Flip the single bit at index `i` of a codeword. -/
def flipAt (cw : List Nat) (i : Nat) : List Nat :=
  cw.set i (cw.getD i 0 ^^^ 1)

/-- Spec-side parity contract (written from the spec's words, for the
refinement claim C6): with `mask = 2^p`, the XOR of every bit at 0-based
index `i` such that `(i + 1) & mask ≠ 0`, for `i` ranging over
`[mask - 1, n - 1]`. -/
def parity_check_spec (n : Nat) (data : List Nat) (p : Nat) : Nat :=
  ((((List.range n).filter
      (fun i => decide (2 ^ p - 1 ≤ i ∧ (i + 1) &&& 2 ^ p ≠ 0))).map
      (fun i => data.getD i 0)).foldl (fun s v => s ^^^ v) 0)

/-- Embeds the body of the byte-stream loop of `hamming_encode_generic`
(src/hamming.c lines 157-181): extract the high nibble of byte `i/2` for
even `i` and the low nibble for odd `i`, split it into 4 bits
most-significant first, encode, and store the 7 codeword bits at
`out_bits[i*7 + j]`. -/
def encode_generic_step (bytes : List Nat) (out : List Nat) (i : Nat) :
    List Nat :=
  let nibble : Nat :=
    if i % 2 = 0 then bytes.getD (i / 2) 0 >>> 4 else bytes.getD (i / 2) 0 &&& 15
  let block : List Nat :=
    [nibble >>> 3 &&& 1, nibble >>> 2 &&& 1, nibble >>> 1 &&& 1, nibble &&& 1]
  let encoded := hamming_encode_nibble block
  (List.range 7).foldl (fun o j => o.set (i * 7 + j) (encoded.getD j 0)) out

/-- Embeds `hamming_encode_generic` (src/hamming.c lines 150-182): iterate
the per-nibble step over the `nibble_count = data_size * 2` nibble
indices. -/
def hamming_encode_generic (bytes : List Nat) (out_bits : List Nat) :
    List Nat :=
  (List.range (bytes.length * 2)).foldl (encode_generic_step bytes) out_bits

/-- Spec-side framing (written from the spec's words, claim C8): a
nibble's 4 bits taken most-significant-bit first. -/
def nibble_bits_msb_first (v : Nat) : List Nat :=
  [v >>> 3 &&& 1, v >>> 2 &&& 1, v >>> 1 &&& 1, v &&& 1]

/-- Spec-side framing (claim C8): nibble `2k` of the byte stream is the
high 4 bits of byte `k`, nibble `2k+1` its low 4 bits. -/
def spec_nibble_of_index (bytes : List Nat) (i : Nat) : Nat :=
  if i % 2 = 0 then bytes.getD (i / 2) 0 >>> 4 else bytes.getD (i / 2) 0 &&& 15

/-- C7: encoding the nibble [1,0,1,1] produces exactly the codeword
[0,1,1,0,0,1,1] (parity positions 0,1,3 and data positions 2,4,5,6). -/
theorem encode_nibble_1011 :
    hamming_encode_nibble [1, 0, 1, 1] = [0, 1, 1, 0, 0, 1, 1] := by
  decide

/-- C2: for every one of the 16 nibbles with bits in {0,1}, decoding the
codeword produced by the nibble encoder returns exactly that nibble. -/
theorem decode_encode_roundtrip (a b c d : Bool) :
    (hamming_decode_nibble
      (hamming_encode_nibble [b2i a, b2i b, b2i c, b2i d])).2 =
      [b2i a, b2i b, b2i c, b2i d] := by
  revert a b c d; decide

/-- C3: for every one of the 16 nibbles with bits in {0,1} and every
codeword position i in 0..6, flipping exactly the bit at position i of the
valid codeword and then decoding yields the original nibble. -/
theorem decode_corrects_single_flip (a b c d : Bool) (i : Fin 7) :
    (hamming_decode_nibble
      (flipAt (hamming_encode_nibble [b2i a, b2i b, b2i c, b2i d]) i.val)).2 =
      [b2i a, b2i b, b2i c, b2i d] := by
  revert a b c d i; decide

/-- C4: the syndrome of every codeword produced by the encoder is 0, and
flipping exactly the bit at 0-based index i of such a codeword gives
syndrome i + 1. -/
theorem syndrome_zero_and_position (a b c d : Bool) :
    calculate_syndrome 7
        (hamming_encode_nibble [b2i a, b2i b, b2i c, b2i d]) = 0 ∧
    ∀ i : Fin 7,
      calculate_syndrome 7
          (flipAt (hamming_encode_nibble [b2i a, b2i b, b2i c, b2i d]) i.val) =
        i.val + 1 := by
  revert a b c d; decide

/-- C5 counterexample: the input [0,0,0,0,0,0,1] is a 7-element input whose
syndrome is 7 (non-zero and ≥ 7), yet the decoder DOES apply a correction
(it flips bit 6), so it does not return the buffer unchanged with the data
bits extracted from indices 2, 4, 5, 6 of the input as received. -/
theorem syndrome_seven_still_corrected :
    (calculate_syndrome 7 [0, 0, 0, 0, 0, 0, 1] ≠ 0 ∧
      7 ≤ calculate_syndrome 7 [0, 0, 0, 0, 0, 0, 1]) ∧
    hamming_decode_nibble [0, 0, 0, 0, 0, 0, 1] ≠
      ([0, 0, 0, 0, 0, 0, 1], [0, 0, 0, 1]) := by
  decide

/-- C5 amended: for every 7-element input whose syndrome is non-zero and
numerically ≥ 8 (so the implied 0-based index `syndrome - 1` is outside
0..6), no bit-flip correction is applied and the decoder totally returns
the 4 data bits extracted from indices 2, 4, 5, 6 of the input. -/
theorem decode_no_correction_syndrome_ge8 (e : List Nat)
    (hlen : e.length = 7)
    (hne : calculate_syndrome 7 e ≠ 0)
    (hge : 8 ≤ calculate_syndrome 7 e) :
    hamming_decode_nibble e =
      (e, [e.getD 2 0, e.getD 4 0, e.getD 5 0, e.getD 6 0]) := by
  unfold hamming_decode_nibble
  have h7 : ¬ calculate_syndrome 7 e - 1 < 7 := by omega
  simp only [hne, if_true, h7, if_false, ite_not]

/-- Witness for `decode_no_correction_syndrome_ge8` at the concrete input
[8,0,0,0,0,0,0], whose syndrome is 8. -/
theorem decode_no_correction_syndrome_ge8_witness :
    hamming_decode_nibble [8, 0, 0, 0, 0, 0, 0] =
      ([8, 0, 0, 0, 0, 0, 0], [0, 0, 0, 0]) := by
  have h := decode_no_correction_syndrome_ge8 [8, 0, 0, 0, 0, 0, 0]
    (by decide) (by decide) (by decide)
  simpa using h

/-- C1 (bug evidence): with `total_bits = 14` (two 7-bit groups, here two
valid codewords) and an output buffer of the specified length
(14/7)*4 = 8, the block decoder faults: its loop runs `total_bits / 4 = 3`
times instead of `total_bits / 7 = 2`, so the third iteration reads
`in_bits[14..20]`, past the 14-bit input (`none` in the model).  A single
7-bit group (where 7/4 = 1 happens to equal 7/7 rounded up) still works. -/
theorem decode_74_loop_bound_bug :
    hamming_decode_74 ([0, 1, 1, 0, 0, 1, 1] ++ [0, 1, 0, 0, 1, 0, 1]) 14
        (List.replicate 8 0) = none ∧
    hamming_decode_74 [0, 1, 1, 0, 0, 1, 1] 7 (List.replicate 4 0) =
      some ([0, 1, 1, 0, 0, 1, 1], [1, 0, 1, 1]) := by
  constructor <;> decide

/-- C9 (bug evidence): block-encoding the concatenation of the nibbles
[1,0,1,1] and [0,1,0,1] does equal the concatenation of their separate
encodings, but block-decoding the 14-bit concatenation of the two
codewords faults (out-of-bounds read, from the `total_bits / 4` loop
bound) instead of returning the concatenation [1,0,1,1] ++ [0,1,0,1] of
the two separate decodings. -/
theorem block_concat_decode_bug :
    hamming_encode_74 ([1, 0, 1, 1] ++ [0, 1, 0, 1]) 8
        (List.replicate 14 0) =
      some ([0, 1, 1, 0, 0, 1, 1] ++ [0, 1, 0, 0, 1, 0, 1]) ∧
    hamming_decode_74 [0, 1, 1, 0, 0, 1, 1] 7 (List.replicate 4 0) =
      some ([0, 1, 1, 0, 0, 1, 1], [1, 0, 1, 1]) ∧
    hamming_decode_74 [0, 1, 0, 0, 1, 0, 1] 7 (List.replicate 4 0) =
      some ([0, 1, 0, 0, 1, 0, 1], [0, 1, 0, 1]) ∧
    hamming_decode_74 ([0, 1, 1, 0, 0, 1, 1] ++ [0, 1, 0, 0, 1, 0, 1]) 14
        (List.replicate 8 0) = none := by
  refine ⟨by decide, by decide, by decide, by decide⟩

/-- Folding the guarded XOR over `[mask-1, n-1]` equals XOR-ing the values
selected from all of `[0, n-1]` by the combined guard. -/
theorem parity_fold_eq (data : List Nat) (mask : Nat) :
    ∀ n : Nat,
      (List.range' (mask - 1) (n - (mask - 1))).foldl
        (fun sum i =>
          if (i + 1) &&& mask ≠ 0 then sum ^^^ data.getD i 0 else sum) 0 =
      ((((List.range n).filter
          (fun i => decide (mask - 1 ≤ i ∧ (i + 1) &&& mask ≠ 0))).map
          (fun i => data.getD i 0)).foldl (fun s v => s ^^^ v) 0) := by
  intro n
  induction n with
  | zero => simp [Nat.sub_eq_zero_of_le (Nat.zero_le _)]
  | succ n ih =>
      by_cases h : mask - 1 ≤ n
      · have h1 : n + 1 - (mask - 1) = (n - (mask - 1)) + 1 := by omega
        have h2 : (mask - 1) + (n - (mask - 1)) = n := by omega
        have h3 : mask ≤ n + 1 := by omega
        rw [h1, List.range'_1_concat, h2, List.foldl_append,
            List.range_succ, List.filter_append, List.map_append,
            List.foldl_append, ih]
        by_cases hR : (n + 1) &&& mask ≠ 0 <;> simp [hR, h, h3]
      · have h1 : n + 1 - (mask - 1) = 0 := by omega
        have h2 : n - (mask - 1) = 0 := by omega
        have h3 : ¬ (mask ≤ n + 1) := by omega
        rw [h1, List.range_succ, List.filter_append, List.map_append,
            List.foldl_append, ← ih, h2]
        simp [h3]

/-- C6: for every bit array `data`, every `n ≥ 0` and every parity-group
index `p ≥ 0` (mask = 2^p), `parity_check` returns the XOR of every bit at
0-based index `i` with `(i+1) & mask ≠ 0` for `i` in `[mask-1, n-1]`
(the spec-side contract `parity_check_spec`), and in particular returns 0
whenever `mask - 1 ≥ n`; it is a total Lean function, hence pure and total
over all such inputs. -/
theorem parity_check_meets_contract (n : Nat) (data : List Nat) (p : Nat) :
    parity_check n data p = parity_check_spec n data p ∧
    (n ≤ 2 ^ p - 1 → parity_check n data p = 0) := by
  have hm : (1 : Nat) <<< p = 2 ^ p := Nat.one_shiftLeft p
  constructor
  · show (List.range' (1 <<< p - 1) (n - (1 <<< p - 1))).foldl
        (fun sum i =>
          if (i + 1) &&& (1 <<< p) ≠ 0 then sum ^^^ data.getD i 0 else sum) 0 =
        parity_check_spec n data p
    rw [hm]
    exact parity_fold_eq data (2 ^ p) n
  · intro h
    show (List.range' (1 <<< p - 1) (n - (1 <<< p - 1))).foldl
        (fun sum i =>
          if (i + 1) &&& (1 <<< p) ≠ 0 then sum ^^^ data.getD i 0 else sum) 0 = 0
    have h0 : n - (1 <<< p - 1) = 0 := by rw [hm]; omega
    rw [h0]
    rfl

/-- Witness for `parity_check_meets_contract`: at `n = 2`, `p = 2` the
group is empty (`mask - 1 = 3 ≥ 2`) and the parity is 0. -/
theorem parity_check_meets_contract_witness :
    parity_check 2 [1, 0, 1] 2 = 0 :=
  (parity_check_meets_contract 2 [1, 0, 1] 2).2 (by decide)

/-- One iteration of the block-decode loop leaves the input buffer (the
first state component) unchanged: the step only reads `st.1`. -/
theorem decode_74_step_fst (st st' : List Nat × List Nat) (i : Nat)
    (h : decode_74_step st i = some st') : st'.1 = st.1 := by
  simp only [decode_74_step, bind, Option.bind_eq_some, pure,
    Option.some.injEq] at h
  obtain ⟨enc, -, d0, -, d1, -, d2, -, d3, -, hst⟩ := h
  rw [← hst]

/-- Any successful run of the block-decode loop preserves the input
buffer. -/
theorem decode_74_foldlM_fst (L : List Nat) :
    ∀ st out : List Nat × List Nat,
      L.foldlM decode_74_step st = some out → out.1 = st.1 := by
  induction L with
  | nil =>
      intro st out h
      simp only [List.foldlM_nil, pure, Option.some.injEq] at h
      rw [← h]
  | cons x L ih =>
      intro st out h
      rw [List.foldlM_cons] at h
      simp only [bind, Option.bind_eq_some] at h
      obtain ⟨st1, hstep, hrest⟩ := h
      rw [ih st1 out hrest, decode_74_step_fst st st1 x hstep]

/-- C10: the block decoder never modifies the caller's input bit array:
whenever `hamming_decode_74` completes, the input-buffer component of the
final state is bit-for-bit the original `in_bits` (each 7-bit group is
copied into a local buffer before the in-place correction). -/
theorem decode_74_input_unchanged (in_bits : List Nat) (total_bits : Nat)
    (decoded_bits : List Nat) (out : List Nat × List Nat)
    (h : hamming_decode_74 in_bits total_bits decoded_bits = some out) :
    out.1 = in_bits :=
  decode_74_foldlM_fst (List.range (total_bits / 4)) (in_bits, decoded_bits)
    out h

/-- Witness for `decode_74_input_unchanged` at a concrete call: decoding
the single codeword [0,1,1,0,0,1,1] leaves the input buffer unchanged. -/
theorem decode_74_input_unchanged_witness :
    (([0, 1, 1, 0, 0, 1, 1], [1, 0, 1, 1]) : List Nat × List Nat).1 =
      [0, 1, 1, 0, 0, 1, 1] :=
  decode_74_input_unchanged [0, 1, 1, 0, 0, 1, 1] 7 [0, 0, 0, 0]
    ([0, 1, 1, 0, 0, 1, 1], [1, 0, 1, 1]) (by decide)

/-- Reading a buffer after a bounds-respecting store. -/
theorem getD_set_zero (l : List Nat) (i j a : Nat) :
    (l.set i a).getD j 0 = if i = j ∧ i < l.length then a else l.getD j 0 := by
  simp only [List.getD_eq_getElem?_getD, List.getElem?_set]
  by_cases h : i = j
  · subst h
    by_cases h2 : i < l.length
    · simp [h2]
    · simp [h2, List.getElem?_eq_none (Nat.le_of_not_lt h2)]
  · simp [h]

/-- A fold of stores does not change the buffer length. -/
theorem length_foldl_set (g f : Nat → Nat) :
    ∀ (L : List Nat) (o : List Nat),
      (L.foldl (fun o j => o.set (f j) (g j)) o).length = o.length := by
  intro L
  induction L with
  | nil => intro o; rfl
  | cons x L ih => intro o; rw [List.foldl_cons, ih, List.length_set]

/-- A fold of stores leaves every position it does not write unchanged. -/
theorem getD_foldl_set_notmem (g f : Nat → Nat) :
    ∀ (L : List Nat) (o : List Nat) (idx : Nat), (∀ j ∈ L, f j ≠ idx) →
      (L.foldl (fun o j => o.set (f j) (g j)) o).getD idx 0 = o.getD idx 0 := by
  intro L
  induction L with
  | nil => intro o idx _; rfl
  | cons x L ih =>
      intro o idx h
      rw [List.foldl_cons, ih _ idx (fun j hj => h j (List.mem_cons_of_mem x hj)),
        getD_set_zero]
      rw [if_neg]
      intro hc
      exact h x (List.mem_cons_self x L) hc.1

/-- A fold of stores at pairwise-distinct in-bounds positions makes every
written position hold its stored value. -/
theorem getD_foldl_set_mem (g f : Nat → Nat) :
    ∀ (L : List Nat) (o : List Nat) (j : Nat), j ∈ L →
      L.Pairwise (fun a b => f a ≠ f b) → f j < o.length →
      (L.foldl (fun o j => o.set (f j) (g j)) o).getD (f j) 0 = g j := by
  intro L
  induction L with
  | nil => intro o j hj; cases hj
  | cons x L ih =>
      intro o j hj hpw hlt
      obtain ⟨hx, hpw'⟩ := List.pairwise_cons.1 hpw
      rw [List.foldl_cons]
      rcases List.mem_cons.1 hj with hjx | hjL
      · subst hjx
        rw [getD_foldl_set_notmem g f L _ (f j) (fun b hb => (hx b hb).symm),
          getD_set_zero, if_pos ⟨rfl, hlt⟩]
      · exact ih _ j hjL hpw' (by rw [List.length_set]; exact hlt)

/-- One byte-stream step writes exactly the 7 codeword bits of its nibble
at offsets `i*7 .. i*7+6` and leaves everything else unchanged. -/
theorem encode_generic_step_getD (bytes o : List Nat) (i idx : Nat)
    (hub : i * 7 + 7 ≤ o.length) :
    (encode_generic_step bytes o i).getD idx 0 =
      if i * 7 ≤ idx ∧ idx < i * 7 + 7 then
        (hamming_encode_nibble
          (nibble_bits_msb_first (spec_nibble_of_index bytes i))).getD
          (idx - i * 7) 0
      else o.getD idx 0 := by
  have hstep : encode_generic_step bytes o i =
      (List.range 7).foldl
        (fun o j => o.set (i * 7 + j)
          ((hamming_encode_nibble
            (nibble_bits_msb_first (spec_nibble_of_index bytes i))).getD j 0))
        o := rfl
  rw [hstep]
  by_cases hin : i * 7 ≤ idx ∧ idx < i * 7 + 7
  · obtain ⟨r, hr7, rfl⟩ : ∃ r, r < 7 ∧ idx = i * 7 + r :=
      ⟨idx - i * 7, by omega, by omega⟩
    rw [if_pos hin, Nat.add_sub_cancel_left]
    exact getD_foldl_set_mem _ _ (List.range 7) o r (List.mem_range.2 hr7)
      ((List.pairwise_lt_range 7).imp (by omega)) (by omega)
  · rw [if_neg hin]
    exact getD_foldl_set_notmem _ _ (List.range 7) o idx
      (fun j hj => by have := List.mem_range.1 hj; omega)

/-- One byte-stream step preserves the output-buffer length. -/
theorem encode_generic_step_length (bytes o : List Nat) (i : Nat) :
    (encode_generic_step bytes o i).length = o.length := by
  have hstep : encode_generic_step bytes o i =
      (List.range 7).foldl
        (fun o j => o.set (i * 7 + j)
          ((hamming_encode_nibble
            (nibble_bits_msb_first (spec_nibble_of_index bytes i))).getD j 0))
        o := rfl
  rw [hstep]
  exact length_foldl_set _ _ (List.range 7) o

/-- After the first `m` byte-stream iterations, positions below `7*m` hold
the codeword bits of the corresponding nibbles and everything above is the
original buffer content. -/
theorem encode_generic_fold_getD (bytes out : List Nat) :
    ∀ m, m ≤ bytes.length * 2 → bytes.length * 2 * 7 ≤ out.length →
    ((List.range m).foldl (encode_generic_step bytes) out).length =
        out.length ∧
    ∀ idx, ((List.range m).foldl (encode_generic_step bytes) out).getD idx 0 =
      if idx < 7 * m then
        (hamming_encode_nibble
          (nibble_bits_msb_first (spec_nibble_of_index bytes (idx / 7)))).getD
          (idx % 7) 0
      else out.getD idx 0 := by
  intro m
  induction m with
  | zero =>
      intro _ _
      exact ⟨rfl, fun idx => by simp⟩
  | succ m ih =>
      intro hm hlen
      obtain ⟨ihl, ihg⟩ := ih (by omega) hlen
      have hsplit : (List.range (m + 1)).foldl (encode_generic_step bytes) out =
          encode_generic_step bytes
            ((List.range m).foldl (encode_generic_step bytes) out) m := by
        rw [List.range_succ, List.foldl_append]
        rfl
      have hub : m * 7 + 7 ≤
          ((List.range m).foldl (encode_generic_step bytes) out).length := by
        rw [ihl]; omega
      constructor
      · rw [hsplit, encode_generic_step_length, ihl]
      · intro idx
        rw [hsplit, encode_generic_step_getD bytes _ m idx hub, ihg idx]
        by_cases h1 : m * 7 ≤ idx ∧ idx < m * 7 + 7
        · have e1 : idx / 7 = m := by omega
          have e2 : idx % 7 = idx - m * 7 := by omega
          rw [if_pos h1, if_pos (show idx < 7 * (m + 1) by omega), e1, e2]
        · by_cases h2 : idx < 7 * m
          · rw [if_neg h1, if_pos h2, if_pos (show idx < 7 * (m + 1) by omega)]
          · rw [if_neg h1, if_neg h2,
              if_neg (show ¬ idx < 7 * (m + 1) by omega)]

/-- C8: for every byte buffer and every output buffer of the specified
length `N*2*7`, the byte-stream encoder fills the whole output; for each
byte index `k`, nibble `2k` is the byte's high 4 bits and nibble `2k+1`
its low 4 bits, each split most-significant-bit first, and each nibble's
7-bit encoding occupies offsets `(nibble index)*7 .. (nibble index)*7+6`. -/
theorem encode_generic_framing (bytes out : List Nat)
    (h : out.length = bytes.length * 2 * 7) :
    (hamming_encode_generic bytes out).length = bytes.length * 2 * 7 ∧
    ∀ k, k < bytes.length → ∀ j, j < 7 →
      (hamming_encode_generic bytes out).getD ((2 * k) * 7 + j) 0 =
        (hamming_encode_nibble
          (nibble_bits_msb_first (bytes.getD k 0 >>> 4))).getD j 0 ∧
      (hamming_encode_generic bytes out).getD ((2 * k + 1) * 7 + j) 0 =
        (hamming_encode_nibble
          (nibble_bits_msb_first (bytes.getD k 0 &&& 15))).getD j 0 := by
  obtain ⟨hl, hg⟩ := encode_generic_fold_getD bytes out (bytes.length * 2)
    (Nat.le_refl _) (Nat.le_of_eq h.symm)
  have hdef : hamming_encode_generic bytes out =
      (List.range (bytes.length * 2)).foldl (encode_generic_step bytes) out :=
    rfl
  constructor
  · rw [hdef, hl, h]
  · intro k hk j hj
    constructor
    · rw [hdef, hg ((2 * k) * 7 + j),
        if_pos (show (2 * k) * 7 + j < 7 * (bytes.length * 2) by omega)]
      have e1 : ((2 * k) * 7 + j) / 7 = 2 * k := by omega
      have e2 : ((2 * k) * 7 + j) % 7 = j := by omega
      rw [e1, e2]
      have e3 : spec_nibble_of_index bytes (2 * k) = bytes.getD k 0 >>> 4 := by
        have e4 : 2 * k % 2 = 0 := by omega
        have e5 : 2 * k / 2 = k := by omega
        rw [spec_nibble_of_index, if_pos e4, e5]
      rw [e3]
    · rw [hdef, hg ((2 * k + 1) * 7 + j),
        if_pos (show (2 * k + 1) * 7 + j < 7 * (bytes.length * 2) by omega)]
      have e1 : ((2 * k + 1) * 7 + j) / 7 = 2 * k + 1 := by omega
      have e2 : ((2 * k + 1) * 7 + j) % 7 = j := by omega
      rw [e1, e2]
      have e3 : spec_nibble_of_index bytes (2 * k + 1) =
          bytes.getD k 0 &&& 15 := by
        have e4 : ¬ (2 * k + 1) % 2 = 0 := by omega
        have e5 : (2 * k + 1) / 2 = k := by omega
        rw [spec_nibble_of_index, if_neg e4, e5]
      rw [e3]

/-- Witness for `encode_generic_framing` at the byte 0xB5 = 181: the high
nibble 0b1011 encodes to [0,1,1,0,0,1,1], whose first bit sits at offset
0 of the output. -/
theorem encode_generic_framing_witness :
    (hamming_encode_generic [181] (List.replicate 14 0)).getD (2 * 0 * 7 + 2)
        0 =
      (hamming_encode_nibble
        (nibble_bits_msb_first ((181 : Nat) >>> 4))).getD 2 0 :=
  ((encode_generic_framing [181] (List.replicate 14 0) (by decide)).2 0
    (by decide) 2 (by decide)).1
